import Mathlib

/-!
Verification of the route-finding engine of the A* Path Finder app
(`src/app.py`) against its natural-language specification.

The in-repository code (`find_path`, the traffic block, the fuel estimate)
is embedded directly.  The graph-search and nearest-node subroutines that
the app delegates to outside libraries (`nx.astar_path`, `nx.has_path`,
`ox.nearest_nodes`) are modelled from the spec, as noted on each
definition.  Real arithmetic is embedded as `ℚ`; Python's `round`
(banker's rounding) is embedded as `pyRound`.
-/

/-- A geographic coordinate: (latitude, longitude). -/
abbrev Coordinate := ℚ × ℚ

/-- A graph node: id plus coordinates (`G.nodes[node]["y"]` = lat,
`["x"]` = lon in the source). -/
structure Node where
  id : ℕ
  lat : ℚ
  lon : ℚ
deriving DecidableEq, Repr

/-- A directed edge with a stored length (the `"length"` attribute used as
A* weight in `find_path`). -/
structure Edge where
  src : ℕ
  tgt : ℕ
  length : ℚ
deriving DecidableEq, Repr

/-- The street graph handed to `find_path`. -/
structure Graph where
  nodes : List Node
  edges : List Edge
deriving Repr

/-- Python's built-in `round` to an integer: round half to even. -/
def pyRound (q : ℚ) : ℤ :=
  let f := ⌊q⌋
  let frac := q - f
  if frac < 1/2 then f
  else if 1/2 < frac then f + 1
  else if f % 2 = 0 then f else f + 1

/-- Python's `round(x, 2)`: round to 2 decimal places. -/
def round2 (q : ℚ) : ℚ := (pyRound (q * 100) : ℚ) / 100

/-- The node ids present in the graph. -/
def nodeIds (G : Graph) : List ℕ := G.nodes.map Node.id

/-- Modelled from the spec: `SpatialIndex.nearest` stands in for
`ox.nearest_nodes`, whose code is not part of this repository.  Returns
the id of the node minimizing the distance `d` to the query coordinate,
ties broken by lowest node id; `none` on an empty graph (`EmptyGraph`). -/
def nearestNode (d : Coordinate → Coordinate → ℚ) (G : Graph)
    (c : Coordinate) : Option ℕ :=
  (G.nodes.foldl (fun acc nd =>
    match acc with
    | none => some nd
    | some best =>
        if d (nd.lat, nd.lon) c < d (best.lat, best.lon) c ∨
            (d (nd.lat, nd.lon) c = d (best.lat, best.lon) c ∧
              nd.id < best.id) then
          some nd
        else
          some best) none).map Node.id

/-- Is there an edge `a → b` in the graph? -/
def hasEdge (G : Graph) (a b : ℕ) : Bool :=
  G.edges.any (fun e => e.src = a ∧ e.tgt = b)

/-- The distinct successors of a node. -/
def successors (G : Graph) (a : ℕ) : List ℕ :=
  ((G.edges.filter (fun e => e.src = a)).map Edge.tgt).dedup

/-- Lengths of all edges `a → b` (a multigraph may hold several). -/
def edgeLengths (G : Graph) (a b : ℕ) : List ℚ :=
  (G.edges.filter (fun e => e.src = a ∧ e.tgt = b)).map Edge.length

/-- The weight A* relaxation assigns a hop `a → b`: the minimum stored
length among parallel edges (0 if no edge — only reached off valid paths). -/
def hopWeight (G : Graph) (a b : ℕ) : ℚ :=
  ((edgeLengths G a b).min?).getD 0

/-- Summed hop weights of a node path. -/
def pathWeight (G : Graph) : List ℕ → ℚ
  | [] => 0
  | [_] => 0
  | a :: b :: r => hopWeight G a b + pathWeight G (b :: r)

/-- Consecutive nodes are connected by an edge. -/
def chainedB (G : Graph) : List ℕ → Bool
  | [] => true
  | [_] => true
  | a :: b :: r => hasEdge G a b && chainedB G (b :: r)

/-- `p` is a valid node path from `s` to `t` in `G`. -/
def pathOk (G : Graph) (s t : ℕ) (p : List ℕ) : Prop :=
  p.head? = some s ∧ p.getLast? = some t ∧ chainedB G p = true

instance (G : Graph) (s t : ℕ) (p : List ℕ) : Decidable (pathOk G s t p) :=
  inferInstanceAs (Decidable (_ ∧ _ ∧ _))

/-- All simple (duplicate-free) paths from `cur` to `t`, avoiding
`visited`, with at most `fuel` nodes. -/
def simplePathsAux (G : Graph) (t : ℕ) :
    ℕ → List ℕ → ℕ → List (List ℕ)
  | 0, _, _ => []
  | fuel + 1, visited, cur =>
      if cur = t then [[cur]]
      else
        ((successors G cur).filter
            (fun n => decide (n ∉ visited ∧ n ≠ cur))).flatMap
          (fun n =>
            (simplePathsAux G t fuel (cur :: visited) n).map
              (fun p => cur :: p))

/-- All simple paths from `s` to `t` in `G`. -/
def simplePaths (G : Graph) (s t : ℕ) : List (List ℕ) :=
  simplePathsAux G t (G.nodes.length + 1) [] s

/-- The first minimum-`pathWeight` element of a list of paths. -/
def argminPath (G : Graph) : List (List ℕ) → Option (List ℕ)
  | [] => none
  | p :: r =>
      match argminPath G r with
      | none => some p
      | some q => if pathWeight G p ≤ pathWeight G q then some p else some q

/-- Modelled from the spec: `PathSearch.findPath` stands in for
`nx.has_path` + `nx.astar_path(G, start, goal, weight="length")`, whose
code is not part of this repository.  Per the spec's contract it returns
a minimum-weight start-to-goal path when one exists and fails
(`NoPathFound`, here `none`) when none does. -/
def findPath (G : Graph) (s t : ℕ) : Option (List ℕ) :=
  argminPath G (simplePaths G s t)

/-- Travel mode, line 82 of the source: `speeds = {"car": 50, "walk": 5,
"bike": 15}`. -/
inductive Mode where
  | car
  | walk
  | bike
deriving DecidableEq, Repr

/-- Reference speed in km/h for each mode. -/
def speeds : Mode → ℚ
  | .car => 50
  | .walk => 5
  | .bike => 15

/-- The dictionary `find_path` returns: either a successful route or the
`"No path found between these points."` failure. -/
inductive FindPathResult where
  | ok (route : List Coordinate) (distance : ℚ) (time_minutes : ℤ)
  | noPath
deriving DecidableEq, Repr

/-- The `"success"` field of the result. -/
def FindPathResult.success : FindPathResult → Bool
  | .ok .. => true
  | .noPath => false

/-- The coordinates of a node id (`(G.nodes[node]["y"], G.nodes[node]["x"])`). -/
def nodeCoord (G : Graph) (n : ℕ) : Coordinate :=
  ((G.nodes.find? (fun nd => nd.id = n)).map
    (fun nd => (nd.lat, nd.lon))).getD (0, 0)

/-- Sum of `d` over consecutive elements: the `total_distance` loop of
`find_path` (lines 75–79). -/
def pairSum (d : Coordinate → Coordinate → ℚ) : List Coordinate → ℚ
  | [] => 0
  | [_] => 0
  | a :: b :: r => d a b + pairSum d (b :: r)

/-- `find_path(G, start_coords, goal_coords, mode)` (lines 61–95),
parametrized by the coordinate distance `d` (the source's
`geopy.distance.distance(...).km`).  Returns `none` when snapping fails
(empty graph), otherwise the source's result dictionary. -/
def find_path (d : Coordinate → Coordinate → ℚ) (G : Graph)
    (start_coords goal_coords : Coordinate) (mode : Mode) :
    Option FindPathResult :=
  match nearestNode d G start_coords, nearestNode d G goal_coords with
  | some start_node, some goal_node =>
      match findPath G start_node goal_node with
      | some route =>
          let route_coords := route.map (nodeCoord G)
          let total_distance := pairSum d route_coords
          let time_minutes := total_distance / speeds mode * 60
          some (.ok route_coords (round2 total_distance)
            (pyRound time_minutes))
      | none => some .noPath
  | _, _ => none

/-- The traffic multiplier chosen from the hour of day (lines 236–244). -/
def trafficFactor (hour : ℕ) : ℚ :=
  if hour = 7 ∨ hour = 8 ∨ hour = 9 ∨ hour = 16 ∨ hour = 17 ∨ hour = 18 then
    3/2
  else if hour = 10 ∨ hour = 11 ∨ hour = 14 ∨ hour = 15 ∨ hour = 19 ∨
      hour = 20 then
    6/5
  else 1

/-- `adjusted_time = round(result["time_minutes"] * traffic_factor)`
(line 246). -/
def adjusted_time (time_minutes : ℤ) (hour : ℕ) : ℤ :=
  pyRound ((time_minutes : ℚ) * trafficFactor hour)

/-- The TrafficModel contract `adjust(baseTime, hour)`: (multiplier,
adjusted time), the pair the traffic block displays. -/
def trafficAdjust (time_minutes : ℤ) (hour : ℕ) : ℚ × ℤ :=
  (trafficFactor hour, adjusted_time time_minutes hour)

/-- `fuel_consumption = round(result["distance"] * 0.08, 2)`
(lines 258–260); note the input is the result's `distance` field. -/
def fuel_consumption (distance : ℚ) : ℚ :=
  round2 (distance * (8/100))

/-- A valid chain of edges (each edge's target is the next one's source). -/
def esChained : List Edge → Bool
  | [] => true
  | [_] => true
  | e :: f :: r => e.tgt = f.src && esChained (f :: r)

/-- `es` is an edge sequence of `G` connecting `s` to `t` (the empty
sequence connects a node to itself). -/
def esOk (G : Graph) (s t : ℕ) (es : List Edge) : Prop :=
  (∀ e ∈ es, e ∈ G.edges) ∧ esChained es = true ∧
    ((es = [] ∧ s = t) ∨
      ((es.head?.map Edge.src) = some s ∧
        (es.getLast?.map Edge.tgt) = some t))

instance (G : Graph) (s t : ℕ) (es : List Edge) : Decidable (esOk G s t es) :=
  inferInstanceAs (Decidable (_ ∧ _ ∧ _))

/-- Stored-length weight of an edge sequence. -/
def esWeight (es : List Edge) : ℚ := (es.map Edge.length).sum

/-! ### Rounding lemmas -/

theorem pyRound_floor_le (q : ℚ) : ⌊q⌋ ≤ pyRound q := by
  simp only [pyRound]
  split_ifs <;> omega

theorem pyRound_nonneg (q : ℚ) (h : 0 ≤ q) : 0 ≤ pyRound q := by
  have h1 : (0:ℤ) ≤ ⌊q⌋ := Int.floor_nonneg.mpr h
  have h2 := pyRound_floor_le q
  omega

theorem le_pyRound_of_le (n : ℤ) (q : ℚ) (h : (n:ℚ) ≤ q) : n ≤ pyRound q := by
  have h1 : n ≤ ⌊q⌋ := Int.le_floor.mpr h
  have h2 := pyRound_floor_le q
  omega

theorem round2_nonneg (q : ℚ) (h : 0 ≤ q) : 0 ≤ round2 q := by
  unfold round2
  have h1 : 0 ≤ pyRound (q * 100) := pyRound_nonneg _ (by positivity)
  have h2 : (0:ℚ) ≤ (pyRound (q * 100) : ℚ) := by exact_mod_cast h1
  positivity

/-! ### Minimum-of-list lemmas for `hopWeight` -/

theorem foldl_min_le_init (l : List ℚ) : ∀ a : ℚ, l.foldl min a ≤ a := by
  induction l with
  | nil => intro a; simp
  | cons x r ih =>
      intro a
      calc (x :: r).foldl min a = r.foldl min (min a x) := by simp [List.foldl]
        _ ≤ min a x := ih _
        _ ≤ a := min_le_left _ _

theorem foldl_min_le_mem (l : List ℚ) :
    ∀ a x : ℚ, x ∈ l → l.foldl min a ≤ x := by
  induction l with
  | nil => intro a x hx; simp at hx
  | cons y r ih =>
      intro a x hx
      rcases List.mem_cons.mp hx with rfl | hx
      · calc (x :: r).foldl min a = r.foldl min (min a x) := by simp [List.foldl]
          _ ≤ min a x := foldl_min_le_init _ _
          _ ≤ x := min_le_right _ _
      · exact ih (min a y) x hx

theorem foldl_min_choice (l : List ℚ) :
    ∀ a : ℚ, l.foldl min a = a ∨ l.foldl min a ∈ l := by
  induction l with
  | nil => intro a; simp
  | cons y r ih =>
      intro a
      have : (y :: r).foldl min a = r.foldl min (min a y) := by simp [List.foldl]
      rw [this]
      rcases ih (min a y) with h | h
      · rcases min_choice a y with hm | hm
        · exact Or.inl (h.trans hm)
        · right
          rw [h, hm]
          exact List.mem_cons_self y r
      · exact Or.inr (List.mem_cons_of_mem y h)

theorem minD_le_mem (l : List ℚ) (x : ℚ) (hx : x ∈ l) :
    (l.min?).getD 0 ≤ x := by
  cases l with
  | nil => simp at hx
  | cons a r =>
      have : (a :: r).min? = some (r.foldl min a) := rfl
      rw [this]
      rcases List.mem_cons.mp hx with rfl | hx
      · exact foldl_min_le_init r x
      · exact foldl_min_le_mem r a x hx

theorem minD_nonneg (l : List ℚ) (h : ∀ x ∈ l, 0 ≤ x) :
    0 ≤ (l.min?).getD 0 := by
  cases l with
  | nil => simp
  | cons a r =>
      have he : (a :: r).min? = some (r.foldl min a) := rfl
      rw [he]
      rcases foldl_min_choice r a with hc | hc
      · rw [Option.getD_some, hc]; exact h a (List.mem_cons_self a r)
      · rw [Option.getD_some]; exact h _ (List.mem_cons_of_mem a hc)

/-! ### Hop and path weight lemmas -/

theorem hopWeight_le_of_edge (G : Graph) (e : Edge) (he : e ∈ G.edges)
    (a b : ℕ) (hsrc : e.src = a) (htgt : e.tgt = b) :
    hopWeight G a b ≤ e.length := by
  apply minD_le_mem
  unfold edgeLengths
  exact List.mem_map_of_mem Edge.length
    (List.mem_filter.mpr ⟨he, by simp [hsrc, htgt]⟩)

theorem hopWeight_nonneg (G : Graph) (hnn : ∀ e ∈ G.edges, 0 ≤ e.length)
    (a b : ℕ) : 0 ≤ hopWeight G a b := by
  apply minD_nonneg
  intro x hx
  unfold edgeLengths at hx
  obtain ⟨e, he, rfl⟩ := List.mem_map.mp hx
  exact hnn e (List.mem_filter.mp he).1

theorem pathWeight_nonneg (G : Graph) (hnn : ∀ e ∈ G.edges, 0 ≤ e.length) :
    ∀ p : List ℕ, 0 ≤ pathWeight G p := by
  intro p
  induction p with
  | nil => simp [pathWeight]
  | cons a r ih =>
      cases r with
      | nil => simp [pathWeight]
      | cons b r' =>
          rw [pathWeight]
          have := hopWeight_nonneg G hnn a b
          linarith

theorem pathWeight_cons (G : Graph) (a b : ℕ) (l : List ℕ)
    (h : l.head? = some b) :
    pathWeight G (a :: l) = hopWeight G a b + pathWeight G l := by
  cases l with
  | nil => simp at h
  | cons x r =>
      simp only [List.head?_cons, Option.some.injEq] at h
      subst h
      rfl

/-! ### Traffic model theorems -/

/-- C6: for every hour 0–23 the traffic multiplier is 1.5 exactly on
{7,8,9,16,17,18}, 1.2 exactly on {10,11,14,15,19,20}, and 1.0 otherwise;
the adjusted time is round(baseTime × multiplier); and
adjust(100,8) = (1.5, 150), adjust(100,11) = (1.2, 120),
adjust(100,2) = (1.0, 100). -/
theorem traffic_multiplier_table :
    (∀ h : ℕ,
      (trafficFactor h = 3/2 ↔
        (h = 7 ∨ h = 8 ∨ h = 9 ∨ h = 16 ∨ h = 17 ∨ h = 18)) ∧
      (trafficFactor h = 6/5 ↔
        (h = 10 ∨ h = 11 ∨ h = 14 ∨ h = 15 ∨ h = 19 ∨ h = 20)) ∧
      (¬(h = 7 ∨ h = 8 ∨ h = 9 ∨ h = 16 ∨ h = 17 ∨ h = 18) →
        ¬(h = 10 ∨ h = 11 ∨ h = 14 ∨ h = 15 ∨ h = 19 ∨ h = 20) →
        trafficFactor h = 1)) ∧
    (∀ (b : ℤ) (h : ℕ),
      trafficAdjust b h = (trafficFactor h, pyRound (b * trafficFactor h))) ∧
    trafficAdjust 100 8 = (3/2, 150) ∧
    trafficAdjust 100 11 = (6/5, 120) ∧
    trafficAdjust 100 2 = (1, 100) := by
  refine ⟨?_, fun _ _ => rfl, ?_, ?_, ?_⟩
  · intro h
    unfold trafficFactor
    split_ifs with h1 h2
    · refine ⟨by simp [h1], ?_, fun hh _ => absurd h1 hh⟩
      constructor
      · intro hq; norm_num at hq
      · intro hm; omega
    · refine ⟨?_, by simp [h2], fun _ hm => absurd h2 hm⟩
      constructor
      · intro hq; norm_num at hq
      · intro hh; exact absurd hh h1
    · refine ⟨?_, ?_, fun _ _ => rfl⟩
      · constructor
        · intro hq; norm_num at hq
        · intro hh; exact absurd hh h1
      · constructor
        · intro hq; norm_num at hq
        · intro hm; exact absurd hm h2
  · show (trafficFactor 8, adjusted_time 100 8) = _
    have hf : trafficFactor 8 = 3/2 := by norm_num [trafficFactor]
    rw [Prod.ext_iff]
    refine ⟨hf, ?_⟩
    show adjusted_time 100 8 = 150
    unfold adjusted_time
    rw [hf]
    norm_num [pyRound]
  · show (trafficFactor 11, adjusted_time 100 11) = _
    have hf : trafficFactor 11 = 6/5 := by norm_num [trafficFactor]
    rw [Prod.ext_iff]
    refine ⟨hf, ?_⟩
    show adjusted_time 100 11 = 120
    unfold adjusted_time
    rw [hf]
    norm_num [pyRound]
  · show (trafficFactor 2, adjusted_time 100 2) = _
    have hf : trafficFactor 2 = 1 := by norm_num [trafficFactor]
    rw [Prod.ext_iff]
    refine ⟨hf, ?_⟩
    show adjusted_time 100 2 = 100
    unfold adjusted_time
    rw [hf]
    norm_num [pyRound]

/-- C10: the multiplier is always one of {1.0, 1.2, 1.5}, hence ≥ 1, so
the adjusted time never falls below the (rounded) base time. -/
theorem traffic_only_delays (h : ℕ) (b : ℤ) (hb : 0 ≤ b) :
    (trafficFactor h = 1 ∨ trafficFactor h = 6/5 ∨ trafficFactor h = 3/2) ∧
    1 ≤ trafficFactor h ∧ b ≤ adjusted_time b h := by
  have hf : trafficFactor h = 1 ∨ trafficFactor h = 6/5 ∨
      trafficFactor h = 3/2 := by
    unfold trafficFactor
    split_ifs <;> simp
  have h1 : 1 ≤ trafficFactor h := by
    rcases hf with hf' | hf' | hf' <;> rw [hf'] <;> norm_num
  refine ⟨hf, h1, ?_⟩
  apply le_pyRound_of_le
  calc ((b : ℚ)) = b * 1 := by ring
    _ ≤ b * trafficFactor h :=
        mul_le_mul_of_nonneg_left h1 (by exact_mod_cast hb)

/-- Witness for `traffic_only_delays` at hour 8, base time 100. -/
theorem traffic_only_delays_witness :
    (0 : ℤ) ≤ 100 ∧
      ((trafficFactor 8 = 1 ∨ trafficFactor 8 = 6/5 ∨
          trafficFactor 8 = 3/2) ∧
        1 ≤ trafficFactor 8 ∧ 100 ≤ adjusted_time 100 8) :=
  ⟨by norm_num, traffic_only_delays 8 100 (by norm_num)⟩

/-! ### Chain and weight splitting -/

theorem chainedB_cons_of_head (G : Graph) (a b : ℕ) (l : List ℕ)
    (hl : chainedB G l = true) (hh : l.head? = some b)
    (he : hasEdge G a b = true) : chainedB G (a :: l) = true := by
  cases l with
  | nil => simp at hh
  | cons x r =>
      simp only [List.head?_cons, Option.some.injEq] at hh
      subst hh
      simp [chainedB, he, hl]

theorem chainedB_tail (G : Graph) (a : ℕ) (l : List ℕ)
    (h : chainedB G (a :: l) = true) : chainedB G l = true := by
  cases l with
  | nil => rfl
  | cons b r =>
      simp only [chainedB, Bool.and_eq_true] at h
      exact h.2

theorem chainedB_append (G : Graph) (a : ℕ) (ys : List ℕ) :
    ∀ xs, chainedB G (xs ++ a :: ys) =
      (chainedB G (xs ++ [a]) && chainedB G (a :: ys)) := by
  intro xs
  induction xs with
  | nil => simp [chainedB]
  | cons x xs' ih =>
      cases xs' with
      | nil => simp [chainedB, Bool.and_assoc]
      | cons x' xs'' =>
          simp only [List.cons_append, List.append_eq, chainedB] at ih ⊢
          rw [ih, Bool.and_assoc]

theorem pathWeight_append (G : Graph) (a : ℕ) (ys : List ℕ) :
    ∀ xs, pathWeight G (xs ++ a :: ys) =
      pathWeight G (xs ++ [a]) + pathWeight G (a :: ys) := by
  intro xs
  induction xs with
  | nil => simp [pathWeight]
  | cons x xs' ih =>
      cases xs' with
      | nil => simp [pathWeight]
      | cons x' xs'' =>
          simp only [List.cons_append, List.append_eq, pathWeight] at ih ⊢
          rw [ih]
          ring

/-! ### Loop removal -/

/-- The suffix of `l` after the first occurrence of `a`. -/
def suffixAfter (a : ℕ) : List ℕ → List ℕ
  | [] => []
  | b :: r => if b = a then r else suffixAfter a r

theorem suffixAfter_length (a : ℕ) :
    ∀ l : List ℕ, a ∈ l → (suffixAfter a l).length < l.length := by
  intro l
  induction l with
  | nil => intro h; simp at h
  | cons b r ih =>
      intro h
      by_cases hb : b = a
      · simp [suffixAfter, hb]
      · have : a ∈ r := by
          rcases List.mem_cons.mp h with h' | h'
          · exact absurd h'.symm hb
          · exact h'
        simp only [suffixAfter, if_neg hb, List.length_cons]
        exact (ih this).trans (Nat.lt_succ_self _)

theorem suffixAfter_split (a : ℕ) :
    ∀ l : List ℕ, a ∈ l → ∃ u, l = u ++ a :: suffixAfter a l := by
  intro l
  induction l with
  | nil => intro h; simp at h
  | cons b r ih =>
      intro h
      by_cases hb : b = a
      · exact ⟨[], by simp [suffixAfter, hb]⟩
      · have hr : a ∈ r := by
          rcases List.mem_cons.mp h with h' | h'
          · exact absurd h'.symm hb
          · exact h'
        obtain ⟨u, hu⟩ := ih hr
        exact ⟨b :: u, by simp [suffixAfter, if_neg hb, ← hu]⟩

theorem suffixAfter_subset (a : ℕ) :
    ∀ l : List ℕ, suffixAfter a l ⊆ l := by
  intro l
  induction l with
  | nil => simp [suffixAfter]
  | cons b r ih =>
      by_cases hb : b = a
      · simp [suffixAfter, hb]
      · simp only [suffixAfter, if_neg hb]
        exact ih.trans (List.subset_cons_self b r)

/-- Removes loops from a node path: whenever the current head reappears
later, skip ahead to its last-added occurrence. -/
def deloop : List ℕ → List ℕ
  | [] => []
  | a :: rest =>
      if h : a ∈ rest then deloop (a :: suffixAfter a rest)
      else a :: deloop rest
termination_by l => l.length
decreasing_by
  · simp only [List.length_cons]
    exact Nat.succ_lt_succ (suffixAfter_length _ _ (by assumption))
  · simp only [List.length_cons]
    exact Nat.lt_succ_self _

theorem deloop_nil : deloop [] = [] := by rw [deloop]

theorem deloop_cons_mem (a : ℕ) (rest : List ℕ) (h : a ∈ rest) :
    deloop (a :: rest) = deloop (a :: suffixAfter a rest) := by
  rw [deloop, dif_pos h]

theorem deloop_cons_not_mem (a : ℕ) (rest : List ℕ) (h : a ∉ rest) :
    deloop (a :: rest) = a :: deloop rest := by
  rw [deloop, dif_neg h]

theorem deloop_head? (l : List ℕ) : (deloop l).head? = l.head? := by
  induction l using deloop.induct with
  | case1 => rw [deloop_nil]
  | case2 a rest h ih =>
      rw [deloop_cons_mem a rest h, ih]
      simp
  | case3 a rest h ih =>
      rw [deloop_cons_not_mem a rest h]
      simp

theorem deloop_subset (l : List ℕ) : deloop l ⊆ l := by
  induction l using deloop.induct with
  | case1 => rw [deloop_nil]; exact List.Subset.refl []
  | case2 a rest h ih =>
      rw [deloop_cons_mem a rest h]
      refine ih.trans ?_
      intro x hx
      rcases List.mem_cons.mp hx with rfl | hx
      · exact List.mem_cons_self _ _
      · exact List.mem_cons_of_mem _ (suffixAfter_subset _ _ hx)
  | case3 a rest h ih =>
      rw [deloop_cons_not_mem a rest h]
      exact List.cons_subset_cons a ih

theorem deloop_nodup (l : List ℕ) : (deloop l).Nodup := by
  induction l using deloop.induct with
  | case1 => rw [deloop_nil]; exact List.nodup_nil
  | case2 a rest h ih =>
      rw [deloop_cons_mem a rest h]
      exact ih
  | case3 a rest h ih =>
      rw [deloop_cons_not_mem a rest h]
      exact List.nodup_cons.mpr ⟨fun hx => h (deloop_subset rest hx), ih⟩

theorem deloop_getLast? (l : List ℕ) : (deloop l).getLast? = l.getLast? := by
  induction l using deloop.induct with
  | case1 => rw [deloop_nil]
  | case2 a rest h ih =>
      rw [deloop_cons_mem a rest h, ih]
      obtain ⟨u, hu⟩ := suffixAfter_split a rest h
      conv_rhs => rw [hu]
      rw [show a :: (u ++ a :: suffixAfter a rest) =
        (a :: u) ++ a :: suffixAfter a rest by simp]
      rw [List.getLast?_append_cons]
  | case3 a rest h ih =>
      rw [deloop_cons_not_mem a rest h]
      cases hr : rest with
      | nil =>
          subst hr
          rw [deloop_nil]
      | cons b r =>
          subst hr
          have hne : deloop (b :: r) ≠ [] := by
            intro hnil
            have hh := deloop_head? (b :: r)
            rw [hnil] at hh
            simp at hh
          obtain ⟨x, xs, hx⟩ := List.exists_cons_of_ne_nil hne
          rw [hx, List.getLast?_cons_cons]
          rw [← hx, ih, List.getLast?_cons_cons]

theorem deloop_chained (G : Graph) (l : List ℕ) :
    chainedB G l = true → chainedB G (deloop l) = true := by
  induction l using deloop.induct with
  | case1 => intro hc; rw [deloop_nil]; exact hc
  | case2 a rest h ih =>
      intro hc
      rw [deloop_cons_mem a rest h]
      apply ih
      obtain ⟨u, hu⟩ := suffixAfter_split a rest h
      rw [hu] at hc
      rw [show a :: (u ++ a :: suffixAfter a rest) =
        (a :: u) ++ a :: suffixAfter a rest by simp] at hc
      rw [chainedB_append] at hc
      simp only [Bool.and_eq_true] at hc
      exact hc.2
  | case3 a rest h ih =>
      intro hc
      rw [deloop_cons_not_mem a rest h]
      cases hr : rest with
      | nil =>
          subst hr
          rw [deloop_nil]
          rfl
      | cons b r =>
          subst hr
          have hc' : chainedB G (b :: r) = true := chainedB_tail G a _ hc
          have hedge : hasEdge G a b = true := by
            simp only [chainedB, Bool.and_eq_true] at hc
            exact hc.1
          refine chainedB_cons_of_head G a b _ (ih hc') ?_ hedge
          rw [deloop_head?]
          rfl

theorem deloop_weight_le (G : Graph) (hnn : ∀ e ∈ G.edges, 0 ≤ e.length)
    (l : List ℕ) : pathWeight G (deloop l) ≤ pathWeight G l := by
  induction l using deloop.induct with
  | case1 => rw [deloop_nil]
  | case2 a rest h ih =>
      rw [deloop_cons_mem a rest h]
      refine ih.trans ?_
      obtain ⟨u, hu⟩ := suffixAfter_split a rest h
      conv_rhs => rw [hu]
      rw [show a :: (u ++ a :: suffixAfter a rest) =
        (a :: u) ++ a :: suffixAfter a rest by simp]
      rw [pathWeight_append]
      have hnn2 := pathWeight_nonneg G hnn ((a :: u) ++ [a])
      linarith
  | case3 a rest h ih =>
      rw [deloop_cons_not_mem a rest h]
      cases hr : rest with
      | nil =>
          subst hr
          rw [deloop_nil]
      | cons b r =>
          subst hr
          have hhd : (deloop (b :: r)).head? = some b := by
            rw [deloop_head?]
            rfl
          rw [pathWeight_cons G a b _ hhd]
          rw [show pathWeight G (a :: b :: r) =
            hopWeight G a b + pathWeight G (b :: r) from rfl]
          linarith

/-! ### Simple-path enumeration: soundness and completeness -/

theorem mem_of_getLast?_eq (l : List ℕ) (t : ℕ) (h : l.getLast? = some t) :
    t ∈ l := by
  have hne : l ≠ [] := by rintro rfl; simp at h
  have he := List.getLast?_eq_getLast_of_ne_nil hne
  rw [he] at h
  simp only [Option.some.injEq] at h
  rw [← h]
  exact List.getLast_mem hne

theorem mem_successors (G : Graph) (a n : ℕ) :
    n ∈ successors G a ↔ hasEdge G a n = true := by
  unfold successors hasEdge
  rw [List.mem_dedup, List.mem_map]
  simp only [List.mem_filter, List.any_eq_true, decide_eq_true_eq]
  constructor
  · rintro ⟨e, ⟨he, hsrc⟩, rfl⟩
    exact ⟨e, he, hsrc, rfl⟩
  · rintro ⟨e, he, hsrc, htgt⟩
    exact ⟨e, ⟨he, hsrc⟩, htgt⟩

theorem simplePathsAux_sound (G : Graph) (t : ℕ) :
    ∀ (fuel : ℕ) (visited : List ℕ) (cur : ℕ) (p : List ℕ),
      cur ∉ visited →
      p ∈ simplePathsAux G t fuel visited cur →
      p.head? = some cur ∧ p.getLast? = some t ∧ chainedB G p = true ∧
        p.Nodup ∧ ∀ x ∈ p, x ∉ visited := by
  intro fuel
  induction fuel with
  | zero =>
      intro visited cur p _ hp
      simp [simplePathsAux] at hp
  | succ fuel ih =>
      intro visited cur p hcv hp
      rw [simplePathsAux] at hp
      by_cases hct : cur = t
      · rw [if_pos hct] at hp
        simp only [List.mem_singleton] at hp
        subst hp
        refine ⟨rfl, by simp [hct], rfl, by simp, ?_⟩
        intro x hx
        simp only [List.mem_singleton] at hx
        subst hx
        exact hcv
      · rw [if_neg hct] at hp
        simp only [List.mem_flatMap, List.mem_map, List.mem_filter,
          decide_eq_true_eq] at hp
        obtain ⟨n, ⟨hns, hnv, hnc⟩, p', hp', rfl⟩ := hp
        have hn' : n ∉ cur :: visited := by
          simp only [List.mem_cons, not_or]
          exact ⟨hnc, hnv⟩
        obtain ⟨hh', hl', hc', hnd', hdis'⟩ := ih (cur :: visited) n p' hn' hp'
        obtain ⟨x, xs, rfl⟩ : ∃ x xs, p' = x :: xs := by
          cases p' with
          | nil => simp at hh'
          | cons x xs => exact ⟨x, xs, rfl⟩
        have hx : x = n := by simpa using hh'
        subst hx
        refine ⟨rfl, ?_, ?_, ?_, ?_⟩
        · rw [List.getLast?_cons_cons]
          exact hl'
        · exact chainedB_cons_of_head G cur x _ hc' rfl
            ((mem_successors G cur x).mp hns)
        · refine List.nodup_cons.mpr ⟨?_, hnd'⟩
          intro hcur
          exact (hdis' cur hcur) (List.mem_cons_self _ _)
        · intro y hy
          rcases List.mem_cons.mp hy with rfl | hy
          · exact hcv
          · have := hdis' y hy
            simp only [List.mem_cons, not_or] at this
            exact this.2

theorem simplePathsAux_complete (G : Graph) (t : ℕ) :
    ∀ (fuel : ℕ) (p visited : List ℕ) (cur : ℕ),
      p.head? = some cur → p.getLast? = some t → chainedB G p = true →
      p.Nodup → (∀ x ∈ p, x ∉ visited) → p.length ≤ fuel →
      p ∈ simplePathsAux G t fuel visited cur := by
  intro fuel
  induction fuel with
  | zero =>
      intro p visited cur hh _ _ _ _ hlen
      cases p with
      | nil => simp at hh
      | cons x p' => simp at hlen
  | succ fuel ih =>
      intro p visited cur hh hl hc hnd hdis hlen
      cases p with
      | nil => simp at hh
      | cons x p' =>
          have hx : cur = x := by
            have := hh
            simp only [List.head?_cons, Option.some.injEq] at this
            exact this.symm
          subst hx
          rw [simplePathsAux]
          cases p' with
          | nil =>
              have hct : cur = t := by simpa using hl
              rw [if_pos hct]
              simp
          | cons n p'' =>
              have hlast : (n :: p'').getLast? = some t := by
                rw [← hl, List.getLast?_cons_cons]
              have htmem : t ∈ n :: p'' := mem_of_getLast?_eq _ t hlast
              have hct : cur ≠ t := by
                intro he
                subst he
                exact (List.nodup_cons.mp hnd).1 htmem
              rw [if_neg hct]
              simp only [List.mem_flatMap, List.mem_map, List.mem_filter,
                decide_eq_true_eq]
              refine ⟨n, ⟨?_, ?_, ?_⟩, n :: p'', ?_, rfl⟩
              · rw [mem_successors]
                simp only [chainedB, Bool.and_eq_true] at hc
                exact hc.1
              · exact hdis n (by simp)
              · intro he
                subst he
                exact (List.nodup_cons.mp hnd).1 (by simp)
              · refine ih (n :: p'') (cur :: visited) n rfl hlast
                  (chainedB_tail G cur _ hc) (List.nodup_cons.mp hnd).2
                  ?_ (by simpa using hlen)
                intro y hy
                simp only [List.mem_cons, not_or]
                constructor
                · intro he
                  subst he
                  exact (List.nodup_cons.mp hnd).1 hy
                · exact hdis y (List.mem_cons_of_mem _ hy)

theorem simplePaths_sound (G : Graph) (s t : ℕ) (p : List ℕ)
    (hp : p ∈ simplePaths G s t) : pathOk G s t p ∧ p.Nodup := by
  obtain ⟨hh, hl, hc, hnd, _⟩ :=
    simplePathsAux_sound G t (G.nodes.length + 1) [] s p (by simp) hp
  exact ⟨⟨hh, hl, hc⟩, hnd⟩

theorem simplePaths_complete (G : Graph) (s t : ℕ) (p : List ℕ)
    (hok : pathOk G s t p) (hnd : p.Nodup)
    (hsub : ∀ x ∈ p, x ∈ nodeIds G) : p ∈ simplePaths G s t := by
  obtain ⟨hh, hl, hc⟩ := hok
  apply simplePathsAux_complete G t (G.nodes.length + 1) p [] s hh hl hc hnd
    (by simp)
  have h1 : p.length ≤ (nodeIds G).length :=
    (hnd.subperm hsub).length_le
  have h2 : (nodeIds G).length = G.nodes.length := List.length_map _ _
  omega

/-! ### Argmin lemmas -/

theorem argminPath_mem (G : Graph) :
    ∀ (l : List (List ℕ)) (p : List ℕ), argminPath G l = some p → p ∈ l := by
  intro l
  induction l with
  | nil => intro p hp; simp [argminPath] at hp
  | cons q r ih =>
      intro p hp
      rw [argminPath] at hp
      split at hp
      · simp only [Option.some.injEq] at hp
        subst hp
        exact List.mem_cons_self _ _
      · rename_i q' harg
        split_ifs at hp with hle
        · simp only [Option.some.injEq] at hp
          subst hp
          exact List.mem_cons_self _ _
        · simp only [Option.some.injEq] at hp
          subst hp
          exact List.mem_cons_of_mem _ (ih _ harg)

theorem argminPath_le (G : Graph) :
    ∀ (l : List (List ℕ)) (p : List ℕ), argminPath G l = some p →
      ∀ q ∈ l, pathWeight G p ≤ pathWeight G q := by
  intro l
  induction l with
  | nil => intro p hp; simp [argminPath] at hp
  | cons q0 r ih =>
      intro p hp q hq
      rw [argminPath] at hp
      split at hp
      · rename_i harg
        simp only [Option.some.injEq] at hp
        subst hp
        have hr : r = [] := by
          cases r with
          | nil => rfl
          | cons a b =>
              rw [argminPath] at harg
              split at harg
              · exact absurd harg (by simp)
              · split_ifs at harg
        subst hr
        simp only [List.mem_singleton] at hq
        subst hq
        rfl
      · rename_i q' harg
        rcases List.mem_cons.mp hq with rfl | hq'
        · split_ifs at hp with hle
          · simp only [Option.some.injEq] at hp
            subst hp
            rfl
          · simp only [Option.some.injEq] at hp
            subst hp
            exact le_of_not_le hle
        · split_ifs at hp with hle
          · simp only [Option.some.injEq] at hp
            subst hp
            exact hle.trans (ih q' harg q hq')
          · simp only [Option.some.injEq] at hp
            subst hp
            exact ih q' harg q hq'

theorem argminPath_eq_none_iff (G : Graph) (l : List (List ℕ)) :
    argminPath G l = none ↔ l = [] := by
  cases l with
  | nil => simp [argminPath]
  | cons q r =>
      simp only [List.cons_ne_nil, iff_false]
      rw [argminPath]
      intro hcon
      split at hcon
      · simp at hcon
      · split_ifs at hcon

/-- The modelled search returns `[s]` when start and goal coincide. -/
theorem findPath_self (G : Graph) (s : ℕ) : findPath G s s = some [s] := by
  unfold findPath simplePaths
  rw [simplePathsAux, if_pos rfl]
  rfl

/-! ### Edge sequences vs node paths -/

/-- The node path traced by an edge sequence starting at `s`. -/
def esNodes (s : ℕ) (es : List Edge) : List ℕ := s :: es.map Edge.tgt

theorem esNodes_spec (G : Graph) :
    ∀ (es : List Edge) (s t : ℕ), esOk G s t es →
      (esNodes s es).head? = some s ∧ (esNodes s es).getLast? = some t ∧
        chainedB G (esNodes s es) = true ∧
        pathWeight G (esNodes s es) ≤ esWeight es := by
  intro es
  induction es with
  | nil =>
      intro s t hok
      obtain ⟨-, -, hend⟩ := hok
      rcases hend with ⟨-, rfl⟩ | ⟨habs, -⟩
      · exact ⟨rfl, rfl, rfl, le_refl _⟩
      · simp at habs
  | cons e es' ih =>
      intro s t hok
      obtain ⟨hmem, hch, hend⟩ := hok
      rcases hend with ⟨habs, -⟩ | ⟨hhead, hlast⟩
      · simp at habs
      · simp only [List.head?_cons, Option.map_some', Option.some.injEq] at hhead
        have he : e ∈ G.edges := hmem e (List.mem_cons_self _ _)
        have hok' : esOk G e.tgt t es' := by
          refine ⟨fun f hf => hmem f (List.mem_cons_of_mem _ hf), ?_, ?_⟩
          · cases es' with
            | nil => rfl
            | cons f es'' =>
                simp only [esChained, Bool.and_eq_true] at hch
                exact hch.2
          · cases es' with
            | nil =>
                left
                refine ⟨rfl, ?_⟩
                simp only [List.getLast?_singleton, Option.map_some',
                  Option.some.injEq] at hlast
                exact hlast
            | cons f es'' =>
                right
                refine ⟨?_, ?_⟩
                · simp only [esChained, Bool.and_eq_true,
                    decide_eq_true_eq] at hch
                  simp only [List.head?_cons, Option.map_some',
                    Option.some.injEq]
                  exact hch.1.symm
                · rw [← hlast, List.getLast?_cons_cons]
        obtain ⟨ih1, ih2, ih3, ih4⟩ := ih e.tgt t hok'
        have hes : esNodes s (e :: es') = s :: esNodes e.tgt es' := by
          simp [esNodes]
        refine ⟨rfl, ?_, ?_, ?_⟩
        · rw [hes]
          rw [show (s :: esNodes e.tgt es').getLast? =
            (esNodes e.tgt es').getLast? by
              cases hes' : esNodes e.tgt es' with
              | nil => simp [esNodes] at hes'
              | cons y ys => rw [List.getLast?_cons_cons]]
          exact ih2
        · rw [hes]
          refine chainedB_cons_of_head G s e.tgt _ ih3 ih1 ?_
          unfold hasEdge
          simp only [List.any_eq_true, decide_eq_true_eq]
          exact ⟨e, he, hhead, rfl⟩
        · rw [hes, pathWeight_cons G s e.tgt _ ih1]
          have hhop : hopWeight G s e.tgt ≤ e.length :=
            hopWeight_le_of_edge G e he s e.tgt hhead rfl
          have hw : esWeight (e :: es') = e.length + esWeight es' := by
            simp [esWeight]
          rw [hw]
          linarith

theorem esOk_to_pathOk (G : Graph) (s t : ℕ) (es : List Edge)
    (hok : esOk G s t es) :
    pathOk G s t (esNodes s es) ∧
      pathWeight G (esNodes s es) ≤ esWeight es := by
  obtain ⟨h1, h2, h3, h4⟩ := esNodes_spec G es s t hok
  exact ⟨⟨h1, h2, h3⟩, h4⟩

theorem pathOk_to_esOk (G : Graph) :
    ∀ (p : List ℕ) (s t : ℕ), pathOk G s t p → ∃ es, esOk G s t es := by
  intro p
  induction p with
  | nil => intro s t hok; simp [pathOk] at hok
  | cons a p' ih =>
      intro s t hok
      obtain ⟨hh, hl, hc⟩ := hok
      have ha : a = s := by simpa using hh
      subst ha
      cases p' with
      | nil =>
          have : t = a := by
            simp only [List.getLast?_singleton, Option.some.injEq] at hl
            exact hl.symm
          subst this
          exact ⟨[], by simp [esOk, esChained]⟩
      | cons b p'' =>
          have hc1 : hasEdge G a b = true := by
            simp only [chainedB, Bool.and_eq_true] at hc
            exact hc.1
          obtain ⟨e, he, hsrc, htgt⟩ : ∃ e ∈ G.edges, e.src = a ∧ e.tgt = b := by
            unfold hasEdge at hc1
            simp only [List.any_eq_true, decide_eq_true_eq] at hc1
            exact hc1
          have hok' : pathOk G b t (b :: p'') :=
            ⟨rfl, by rw [← hl, List.getLast?_cons_cons],
              chainedB_tail G a _ hc⟩
          obtain ⟨es', hes'⟩ := ih b t hok'
          obtain ⟨hm', hch', hend'⟩ := hes'
          refine ⟨e :: es', ?_, ?_, ?_⟩
          · intro f hf
            rcases List.mem_cons.mp hf with rfl | hf
            · exact he
            · exact hm' f hf
          · cases es' with
            | nil => rfl
            | cons f es'' =>
                rcases hend' with ⟨habs, -⟩ | ⟨hh', -⟩
                · simp at habs
                · simp only [List.head?_cons, Option.map_some',
                    Option.some.injEq] at hh'
                  simp only [esChained, Bool.and_eq_true, decide_eq_true_eq]
                  exact ⟨by rw [htgt, hh'], hch'⟩
          · right
            refine ⟨by simp [hsrc], ?_⟩
            cases es' with
            | nil =>
                rcases hend' with ⟨-, rfl⟩ | ⟨-, habs⟩
                · simp [htgt]
                · simp at habs
            | cons f es'' =>
                rcases hend' with ⟨habs, -⟩ | ⟨-, hl'⟩
                · simp at habs
                · rw [show ((e :: f :: es'').getLast?.map Edge.tgt) =
                    ((f :: es'').getLast?.map Edge.tgt) by
                      rw [List.getLast?_cons_cons]]
                  exact hl'

theorem esNodes_subset_ids (G : Graph) (s : ℕ) (es : List Edge)
    (hval : ∀ e ∈ G.edges, e.tgt ∈ nodeIds G)
    (hmem : ∀ e ∈ es, e ∈ G.edges) (hs : s ∈ nodeIds G) :
    ∀ x ∈ esNodes s es, x ∈ nodeIds G := by
  intro x hx
  rcases List.mem_cons.mp hx with rfl | hx
  · exact hs
  · obtain ⟨e, he, rfl⟩ := List.mem_map.mp hx
    exact hval e (hmem e he)

theorem exists_simple_path_of_esOk (G : Graph) (s t : ℕ) (es : List Edge)
    (hval : ∀ e ∈ G.edges, e.tgt ∈ nodeIds G) (hs : s ∈ nodeIds G)
    (hok : esOk G s t es) :
    ∃ q, q ∈ simplePaths G s t ∧
      ((∀ e ∈ G.edges, 0 ≤ e.length) → pathWeight G q ≤ esWeight es) := by
  obtain ⟨⟨hh, hl, hc⟩, hw⟩ := esOk_to_pathOk G s t es hok
  refine ⟨deloop (esNodes s es), ?_, ?_⟩
  · apply simplePaths_complete G s t (deloop (esNodes s es))
      ⟨by rw [deloop_head?]; exact hh,
        by rw [deloop_getLast?]; exact hl,
        deloop_chained G _ hc⟩
      (deloop_nodup _)
    intro x hx
    exact esNodes_subset_ids G s es hval hok.1 hs x (deloop_subset _ hx)
  · intro hnn
    exact (deloop_weight_le G hnn _).trans hw

/-! ### Main path-search theorems -/

/-- C1: if the search succeeds, the returned node path is a valid
start-to-goal path and its summed edge weights are ≤ the stored-length
weight of every start-to-goal edge sequence in the graph (optimality). -/
theorem findPath_optimal (G : Graph) (s t : ℕ) (p : List ℕ)
    (hnn : ∀ e ∈ G.edges, 0 ≤ e.length)
    (hval : ∀ e ∈ G.edges, e.tgt ∈ nodeIds G)
    (hs : s ∈ nodeIds G)
    (hfind : findPath G s t = some p) :
    pathOk G s t p ∧
      ∀ es : List Edge, esOk G s t es → pathWeight G p ≤ esWeight es := by
  have hpmem := argminPath_mem G _ p hfind
  have hsound := simplePaths_sound G s t p hpmem
  refine ⟨hsound.1, ?_⟩
  intro es hes
  obtain ⟨q, hq, hwq⟩ := exists_simple_path_of_esOk G s t es hval hs hes
  exact (argminPath_le G _ p hfind q hq).trans (hwq hnn)

/-- C2: with both endpoints snapped, the query fails (returns the
`NoPathFound` result, whose success flag is false) exactly when no edge
sequence of the graph connects the snapped start node to the snapped goal
node; every other returned result is a success. -/
theorem find_path_noPathFound_iff (d : Coordinate → Coordinate → ℚ)
    (G : Graph) (sc gc : Coordinate) (mode : Mode) (s t : ℕ)
    (hval : ∀ e ∈ G.edges, e.tgt ∈ nodeIds G) (hs : s ∈ nodeIds G)
    (hsn : nearestNode d G sc = some s) (hgn : nearestNode d G gc = some t) :
    (find_path d G sc gc mode = some FindPathResult.noPath ↔
      ¬ ∃ es : List Edge, esOk G s t es) ∧
    (∀ r, find_path d G sc gc mode = some r →
      (r.success = false ↔ r = FindPathResult.noPath)) := by
  simp only [find_path, hsn, hgn]
  cases hfp : findPath G s t with
  | some p =>
      have hpmem := argminPath_mem G _ p hfp
      have hsound := simplePaths_sound G s t p hpmem
      obtain ⟨es, hes⟩ := pathOk_to_esOk G p s t hsound.1
      constructor
      · simp only [reduceCtorEq, Option.some.injEq, false_iff, not_not]
        exact ⟨es, hes⟩
      · intro r hr
        simp only [Option.some.injEq] at hr
        subst hr
        simp [FindPathResult.success]
  | none =>
      constructor
      · simp only [Option.some.injEq, true_iff]
        rintro ⟨es, hes⟩
        obtain ⟨q, hq, -⟩ := exists_simple_path_of_esOk G s t es hval hs hes
        have hnil : simplePaths G s t = [] :=
          (argminPath_eq_none_iff G _).mp hfp
        rw [hnil] at hq
        simp at hq
      · intro r hr
        simp only [Option.some.injEq] at hr
        subst hr
        simp [FindPathResult.success]

theorem pyRound_zero : pyRound 0 = 0 := by norm_num [pyRound]

theorem round2_zero : round2 0 = 0 := by norm_num [round2, pyRound]

/-- C3: when start and goal snap to the same node, the query succeeds with
the single-element route at that node, distance 0 and time 0. -/
theorem find_path_same_node (d : Coordinate → Coordinate → ℚ) (G : Graph)
    (sc gc : Coordinate) (mode : Mode) (s : ℕ)
    (hsn : nearestNode d G sc = some s) (hgn : nearestNode d G gc = some s) :
    find_path d G sc gc mode =
      some (FindPathResult.ok [nodeCoord G s] 0 0) ∧
    FindPathResult.success (FindPathResult.ok [nodeCoord G s] 0 0) = true := by
  refine ⟨?_, rfl⟩
  simp only [find_path, hsn, hgn, findPath_self]
  have h1 : pairSum d [nodeCoord G s] = 0 := rfl
  simp only [List.map_cons, List.map_nil, h1]
  rw [show (0 : ℚ) / speeds mode * 60 = 0 by
    rw [zero_div, zero_mul]]
  rw [round2_zero, pyRound_zero]

/-! ### Successful-result structure -/

theorem find_path_ok_inv (d : Coordinate → Coordinate → ℚ) (G : Graph)
    (sc gc : Coordinate) (mode : Mode) (route : List Coordinate)
    (dist : ℚ) (tm : ℤ)
    (h : find_path d G sc gc mode =
      some (FindPathResult.ok route dist tm)) :
    ∃ s t p, nearestNode d G sc = some s ∧ nearestNode d G gc = some t ∧
      findPath G s t = some p ∧ route = p.map (nodeCoord G) ∧
      dist = round2 (pairSum d route) ∧
      tm = pyRound (pairSum d route / speeds mode * 60) := by
  unfold find_path at h
  split at h
  · rename_i s t hsn hgn
    split at h
    · rename_i p hfp
      simp only [Option.some.injEq, FindPathResult.ok.injEq] at h
      obtain ⟨hroute, hdist, htm⟩ := h
      exact ⟨s, t, p, hsn, hgn, hfp, hroute.symm,
        by rw [← hroute]; exact hdist.symm,
        by rw [← hroute]; exact htm.symm⟩
    · simp at h
  · simp at h

theorem pairSum_nonneg (d : Coordinate → Coordinate → ℚ)
    (hd : ∀ a b, 0 ≤ d a b) : ∀ l : List Coordinate, 0 ≤ pairSum d l := by
  intro l
  induction l with
  | nil => simp [pairSum]
  | cons a r ih =>
      cases r with
      | nil => simp [pairSum]
      | cons b r' =>
          rw [pairSum]
          have := hd a b
          linarith

theorem speeds_pos (mode : Mode) : 0 < speeds mode := by
  cases mode <;> norm_num [speeds]

theorem findPath_ne_nil (G : Graph) (s t : ℕ) (p : List ℕ)
    (h : findPath G s t = some p) : p ≠ [] := by
  intro hnil
  subst hnil
  have := (simplePaths_sound G s t [] (argminPath_mem G _ _ h)).1.1
  simp at this

/-- C4 (amended): the reported distance is the pairwise-recomputed
coordinate distance sum rounded to 2 decimals, the time estimate is
computed from the unrounded sum, and the car-mode fuel estimate is
computed from the rounded displayed distance (not the unrounded sum). -/
theorem distance_recomputed_spec (d : Coordinate → Coordinate → ℚ)
    (G : Graph) (sc gc : Coordinate) (mode : Mode)
    (route : List Coordinate) (dist : ℚ) (tm : ℤ)
    (h : find_path d G sc gc mode =
      some (FindPathResult.ok route dist tm)) :
    dist = round2 (pairSum d route) ∧
    tm = pyRound (pairSum d route / speeds mode * 60) ∧
    fuel_consumption dist = round2 (round2 (pairSum d route) * (8/100)) := by
  obtain ⟨s, t, p, -, -, -, -, hdist, htm⟩ :=
    find_path_ok_inv d G sc gc mode route dist tm h
  refine ⟨hdist, htm, ?_⟩
  rw [fuel_consumption, hdist]

/-- C5: the reported time in minutes is the unrounded distance divided by
the mode's reference speed, times 60, rounded; the reference speeds are
Car = 50, Walk = 5, Bike = 15 km/h. -/
theorem time_estimate_spec (d : Coordinate → Coordinate → ℚ) (G : Graph)
    (sc gc : Coordinate) (mode : Mode) (route : List Coordinate)
    (dist : ℚ) (tm : ℤ)
    (h : find_path d G sc gc mode =
      some (FindPathResult.ok route dist tm)) :
    tm = pyRound (pairSum d route / speeds mode * 60) ∧
    speeds Mode.car = 50 ∧ speeds Mode.walk = 5 ∧ speeds Mode.bike = 15 := by
  obtain ⟨s, t, p, -, -, -, -, -, htm⟩ :=
    find_path_ok_inv d G sc gc mode route dist tm h
  exact ⟨htm, rfl, rfl, rfl⟩

/-- C9: every successful result satisfies the Route invariant — the
geometry is the found node path's coordinates in order and is non-empty,
the distance is ≥ 0, and the time is ≥ 0. -/
theorem route_invariant (d : Coordinate → Coordinate → ℚ) (G : Graph)
    (sc gc : Coordinate) (mode : Mode) (route : List Coordinate)
    (dist : ℚ) (tm : ℤ)
    (hd : ∀ a b, 0 ≤ d a b)
    (h : find_path d G sc gc mode =
      some (FindPathResult.ok route dist tm)) :
    route ≠ [] ∧ 0 ≤ dist ∧ 0 ≤ tm ∧
      ∃ s t p, nearestNode d G sc = some s ∧ nearestNode d G gc = some t ∧
        findPath G s t = some p ∧ route = p.map (nodeCoord G) := by
  obtain ⟨s, t, p, hsn, hgn, hfp, hroute, hdist, htm⟩ :=
    find_path_ok_inv d G sc gc mode route dist tm h
  refine ⟨?_, ?_, ?_, s, t, p, hsn, hgn, hfp, hroute⟩
  · rw [hroute]
    simp only [ne_eq, List.map_eq_nil_iff]
    exact findPath_ne_nil G s t p hfp
  · rw [hdist]
    exact round2_nonneg _ (pairSum_nonneg d hd route)
  · rw [htm]
    apply pyRound_nonneg
    have h1 : 0 ≤ pairSum d route := pairSum_nonneg d hd route
    have h2 : 0 < speeds mode := speeds_pos mode
    positivity

/-! ### Nearest-node snapping -/

/-- One step of the `nearestNode` fold. -/
def nearestStep (d : Coordinate → Coordinate → ℚ) (c : Coordinate) :
    Option Node → Node → Option Node := fun acc nd =>
  match acc with
  | none => some nd
  | some best =>
      if d (nd.lat, nd.lon) c < d (best.lat, best.lon) c ∨
          (d (nd.lat, nd.lon) c = d (best.lat, best.lon) c ∧
            nd.id < best.id) then
        some nd
      else
        some best

theorem nearestNode_eq_fold (d : Coordinate → Coordinate → ℚ) (G : Graph)
    (c : Coordinate) :
    nearestNode d G c = (G.nodes.foldl (nearestStep d c) none).map Node.id :=
  rfl

/-- Lexicographic "is at least as good a candidate" order used by the
snapping fold: closer, or equally close with id no larger. -/
def nnLe (d : Coordinate → Coordinate → ℚ) (c : Coordinate)
    (a b : Node) : Prop :=
  d (a.lat, a.lon) c < d (b.lat, b.lon) c ∨
    (d (a.lat, a.lon) c = d (b.lat, b.lon) c ∧ a.id ≤ b.id)

theorem nnLe_refl (d : Coordinate → Coordinate → ℚ) (c : Coordinate)
    (a : Node) : nnLe d c a a :=
  Or.inr ⟨rfl, le_refl _⟩

theorem nnLe_trans (d : Coordinate → Coordinate → ℚ) (c : Coordinate)
    (a b e : Node) (h1 : nnLe d c a b) (h2 : nnLe d c b e) :
    nnLe d c a e := by
  rcases h1 with h1 | ⟨h1, h1'⟩ <;> rcases h2 with h2 | ⟨h2, h2'⟩
  · exact Or.inl (h1.trans h2)
  · exact Or.inl (by rw [← h2]; exact h1)
  · exact Or.inl (by rw [h1]; exact h2)
  · exact Or.inr ⟨h1.trans h2, h1'.trans h2'⟩

theorem nearestStep_le (d : Coordinate → Coordinate → ℚ) (c : Coordinate)
    (b nd : Node) :
    ∃ b0, nearestStep d c (some b) nd = some b0 ∧ (b0 = b ∨ b0 = nd) ∧
      nnLe d c b0 b ∧ nnLe d c b0 nd := by
  by_cases hc : d (nd.lat, nd.lon) c < d (b.lat, b.lon) c ∨
      (d (nd.lat, nd.lon) c = d (b.lat, b.lon) c ∧ nd.id < b.id)
  · refine ⟨nd, ?_, Or.inr rfl, ?_, nnLe_refl d c nd⟩
    · show (if d (nd.lat, nd.lon) c < d (b.lat, b.lon) c ∨
          (d (nd.lat, nd.lon) c = d (b.lat, b.lon) c ∧ nd.id < b.id) then
        some nd else some b) = some nd
      rw [if_pos hc]
    · rcases hc with hc | ⟨hc, hid⟩
      · exact Or.inl hc
      · exact Or.inr ⟨hc, le_of_lt hid⟩
  · refine ⟨b, ?_, Or.inl rfl, nnLe_refl d c b, ?_⟩
    · show (if d (nd.lat, nd.lon) c < d (b.lat, b.lon) c ∨
          (d (nd.lat, nd.lon) c = d (b.lat, b.lon) c ∧ nd.id < b.id) then
        some nd else some b) = some b
      rw [if_neg hc]
    · push_neg at hc
      obtain ⟨hlt, hid⟩ := hc
      rcases lt_or_eq_of_le hlt with hlt' | heq
      · exact Or.inl hlt'
      · exact Or.inr ⟨heq, hid heq.symm⟩

theorem nearestFold_spec (d : Coordinate → Coordinate → ℚ) (c : Coordinate) :
    ∀ (l : List Node) (b : Node),
      ∃ b', l.foldl (nearestStep d c) (some b) = some b' ∧
        (b' = b ∨ b' ∈ l) ∧
        ∀ m, (m = b ∨ m ∈ l) → nnLe d c b' m := by
  intro l
  induction l with
  | nil =>
      intro b
      refine ⟨b, rfl, Or.inl rfl, ?_⟩
      rintro m (rfl | hm)
      · exact nnLe_refl d c m
      · simp at hm
  | cons nd l ih =>
      intro b
      obtain ⟨b0, hb0, hbcase, hle_b, hle_nd⟩ := nearestStep_le d c b nd
      obtain ⟨b', hb', hmem, hmin⟩ := ih b0
      refine ⟨b', ?_, ?_, ?_⟩
      · rw [List.foldl_cons, hb0]
        exact hb'
      · rcases hmem with rfl | hm
        · rcases hbcase with rfl | rfl
          · exact Or.inl rfl
          · exact Or.inr (List.mem_cons_self _ _)
        · exact Or.inr (List.mem_cons_of_mem _ hm)
      · rintro m (rfl | hm)
        · exact nnLe_trans d c b' b0 m (hmin b0 (Or.inl rfl)) hle_b
        · rcases List.mem_cons.mp hm with rfl | hm'
          · exact nnLe_trans d c b' b0 m (hmin b0 (Or.inl rfl)) hle_nd
          · exact hmin m (Or.inr hm')

/-- C8: on a non-empty graph the snapping step returns the id of a node of
the graph to which no other node is strictly closer, with distance ties
broken by lowest node id; on an empty graph it fails. -/
theorem nearestNode_spec (d : Coordinate → Coordinate → ℚ) (G : Graph)
    (c : Coordinate) :
    (G.nodes = [] → nearestNode d G c = none) ∧
    (G.nodes ≠ [] → ∃ nd ∈ G.nodes, nearestNode d G c = some nd.id ∧
      (∀ m ∈ G.nodes, ¬ d (m.lat, m.lon) c < d (nd.lat, nd.lon) c) ∧
      (∀ m ∈ G.nodes,
        d (m.lat, m.lon) c = d (nd.lat, nd.lon) c → nd.id ≤ m.id)) := by
  constructor
  · intro hnil
    rw [nearestNode_eq_fold, hnil]
    rfl
  · intro hne
    obtain ⟨n, l, hnl⟩ := List.exists_cons_of_ne_nil hne
    obtain ⟨b', hb', hmem, hmin⟩ := nearestFold_spec d c l n
    have hfold : G.nodes.foldl (nearestStep d c) none = some b' := by
      rw [hnl, List.foldl_cons]
      exact hb'
    have hb'mem : b' ∈ G.nodes := by
      rw [hnl]
      rcases hmem with rfl | hm
      · exact List.mem_cons_self _ _
      · exact List.mem_cons_of_mem _ hm
    refine ⟨b', hb'mem, ?_, ?_, ?_⟩
    · rw [nearestNode_eq_fold, hfold]
      rfl
    · intro m hm
      have hmn : m = n ∨ m ∈ l := by
        rw [hnl] at hm
        exact List.mem_cons.mp hm
      rcases hmin m hmn with hlt | ⟨heq, -⟩
      · exact fun hcon => absurd hcon (not_lt_of_lt hlt)
      · rw [heq]
        exact lt_irrefl _
    · intro m hm heq
      have hmn : m = n ∨ m ∈ l := by
        rw [hnl] at hm
        exact List.mem_cons.mp hm
      rcases hmin m hmn with hlt | ⟨-, hid⟩
      · rw [heq] at hlt
        exact absurd hlt (lt_irrefl _)
      · exact hid

/-! ### Step-evaluation helpers for the snapping fold -/

theorem nearestStep_none (d : Coordinate → Coordinate → ℚ) (c : Coordinate)
    (nd : Node) : nearestStep d c none nd = some nd := rfl

theorem nearestStep_keep (d : Coordinate → Coordinate → ℚ) (c : Coordinate)
    (b nd : Node)
    (h : ¬(d (nd.lat, nd.lon) c < d (b.lat, b.lon) c ∨
      (d (nd.lat, nd.lon) c = d (b.lat, b.lon) c ∧ nd.id < b.id))) :
    nearestStep d c (some b) nd = some b := by
  show (if d (nd.lat, nd.lon) c < d (b.lat, b.lon) c ∨
      (d (nd.lat, nd.lon) c = d (b.lat, b.lon) c ∧ nd.id < b.id) then
    some nd else some b) = some b
  rw [if_neg h]

theorem nearestStep_take (d : Coordinate → Coordinate → ℚ) (c : Coordinate)
    (b nd : Node)
    (h : d (nd.lat, nd.lon) c < d (b.lat, b.lon) c ∨
      (d (nd.lat, nd.lon) c = d (b.lat, b.lon) c ∧ nd.id < b.id)) :
    nearestStep d c (some b) nd = some nd := by
  show (if d (nd.lat, nd.lon) c < d (b.lat, b.lon) c ∨
      (d (nd.lat, nd.lon) c = d (b.lat, b.lon) c ∧ nd.id < b.id) then
    some nd else some b) = some nd
  rw [if_pos h]

/-! ### Concrete instances for witnesses -/

/-- Taxicab distance: a simple concrete instantiation of the distance
parameter for closed examples. -/
def dTaxi : Coordinate → Coordinate → ℚ :=
  fun a b => |a.1 - b.1| + |a.2 - b.2|

theorem dTaxi_nonneg : ∀ a b : Coordinate, 0 ≤ dTaxi a b := by
  intro a b
  unfold dTaxi
  positivity

/-- Two nodes joined by one edge; the second node sits 1.6856 km away
under `dTaxi`. -/
def Gtwo : Graph :=
  ⟨[⟨0, 0, 0⟩, ⟨1, 0, 16856/10000⟩], [⟨0, 1, 1⟩]⟩

/-- Two isolated nodes (no edges): two disconnected components. -/
def Gsplit : Graph := ⟨[⟨0, 0, 0⟩, ⟨1, 10, 10⟩], []⟩

theorem nearest_Gtwo_start : nearestNode dTaxi Gtwo (0, 0) = some 0 := by
  rw [nearestNode_eq_fold]
  show (([⟨0, 0, 0⟩, ⟨1, 0, 16856/10000⟩] : List Node).foldl
    (nearestStep dTaxi (0, 0)) none).map Node.id = some 0
  rw [List.foldl_cons, nearestStep_none, List.foldl_cons,
    nearestStep_keep _ _ _ _ (by norm_num [dTaxi])]
  rfl

theorem nearest_Gtwo_goal :
    nearestNode dTaxi Gtwo (0, 16856/10000) = some 1 := by
  rw [nearestNode_eq_fold]
  show (([⟨0, 0, 0⟩, ⟨1, 0, 16856/10000⟩] : List Node).foldl
    (nearestStep dTaxi (0, 16856/10000)) none).map Node.id = some 1
  rw [List.foldl_cons, nearestStep_none, List.foldl_cons,
    nearestStep_take _ _ _ _ (by norm_num [dTaxi])]
  rfl

theorem nearest_Gsplit_start : nearestNode dTaxi Gsplit (0, 0) = some 0 := by
  rw [nearestNode_eq_fold]
  show (([⟨0, 0, 0⟩, ⟨1, 10, 10⟩] : List Node).foldl
    (nearestStep dTaxi (0, 0)) none).map Node.id = some 0
  rw [List.foldl_cons, nearestStep_none, List.foldl_cons,
    nearestStep_keep _ _ _ _ (by norm_num [dTaxi])]
  rfl

theorem nearest_Gsplit_goal :
    nearestNode dTaxi Gsplit (10, 10) = some 1 := by
  rw [nearestNode_eq_fold]
  show (([⟨0, 0, 0⟩, ⟨1, 10, 10⟩] : List Node).foldl
    (nearestStep dTaxi (10, 10)) none).map Node.id = some 1
  rw [List.foldl_cons, nearestStep_none, List.foldl_cons,
    nearestStep_take _ _ _ _ (by norm_num [dTaxi])]
  rfl

theorem findPath_Gtwo : findPath Gtwo 0 1 = some [0, 1] := rfl

theorem find_path_Gtwo_eval :
    find_path dTaxi Gtwo (0, 0) (0, 16856/10000) Mode.car =
      some (FindPathResult.ok [(0, 0), (0, 16856/10000)] (169/100) 2) := by
  simp only [find_path, nearest_Gtwo_start, nearest_Gtwo_goal, findPath_Gtwo]
  have hmap : List.map (nodeCoord Gtwo) [0, 1] =
      [((0 : ℚ), (0 : ℚ)), ((0 : ℚ), (16856/10000 : ℚ))] := rfl
  rw [hmap]
  have hps : pairSum dTaxi
      [((0 : ℚ), (0 : ℚ)), ((0 : ℚ), (16856/10000 : ℚ))] = 16856/10000 := by
    norm_num [pairSum, dTaxi]
  rw [hps]
  have h1 : round2 (16856/10000) = 169/100 := by norm_num [round2, pyRound]
  have h2 : pyRound (16856/10000 / speeds Mode.car * 60) = 2 := by
    norm_num [speeds, pyRound]
  rw [h1, h2]

/-! ### Counterexample and witnesses -/

/-- C4 counterexample: at this concrete query the unrounded recomputed
distance is 1.6856 km, the displayed distance is 1.69 km, and the fuel
estimate the code produces (0.14 L, from the rounded displayed distance)
differs from the 0.13 L that the unrounded value would give — so the
unrounded value is not the one consumed by the fuel computation. -/
theorem fuel_from_rounded_cex :
    find_path dTaxi Gtwo (0, 0) (0, 16856/10000) Mode.car =
      some (FindPathResult.ok [(0, 0), (0, 16856/10000)] (169/100) 2) ∧
    pairSum dTaxi [(0, 0), (0, 16856/10000)] = 16856/10000 ∧
    fuel_consumption (169/100) = 14/100 ∧
    round2 (16856/10000 * (8/100)) = 13/100 ∧
    fuel_consumption (169/100) ≠ round2 (16856/10000 * (8/100)) := by
  have h1 : pairSum dTaxi [((0 : ℚ), (0 : ℚ)),
      ((0 : ℚ), (16856/10000 : ℚ))] = 16856/10000 := by
    norm_num [pairSum, dTaxi]
  have h2 : fuel_consumption (169/100) = 14/100 := by
    norm_num [fuel_consumption, round2, pyRound]
  have h3 : round2 (16856/10000 * (8/100)) = 13/100 := by
    norm_num [round2, pyRound]
  refine ⟨find_path_Gtwo_eval, h1, h2, h3, ?_⟩
  rw [h2, h3]
  norm_num

/-- Witness for `findPath_optimal` on the one-edge graph `Gtwo`. -/
theorem findPath_optimal_witness :
    pathOk Gtwo 0 1 [0, 1] ∧
      ∀ es : List Edge, esOk Gtwo 0 1 es →
        pathWeight Gtwo [0, 1] ≤ esWeight es :=
  findPath_optimal Gtwo 0 1 [0, 1]
    (by
      intro e he
      have : e = ⟨0, 1, 1⟩ := by simpa [Gtwo] using he
      rw [this]
      norm_num)
    (by
      intro e he
      have : e = ⟨0, 1, 1⟩ := by simpa [Gtwo] using he
      rw [this]
      simp [nodeIds, Gtwo])
    (by simp [nodeIds, Gtwo])
    findPath_Gtwo

/-- Witness for `find_path_noPathFound_iff` on the disconnected graph
`Gsplit`. -/
theorem find_path_noPathFound_iff_witness :
    (find_path dTaxi Gsplit (0, 0) (10, 10) Mode.walk =
        some FindPathResult.noPath ↔
      ¬ ∃ es : List Edge, esOk Gsplit 0 1 es) ∧
    (∀ r, find_path dTaxi Gsplit (0, 0) (10, 10) Mode.walk = some r →
      (FindPathResult.success r = false ↔ r = FindPathResult.noPath)) :=
  find_path_noPathFound_iff dTaxi Gsplit (0, 0) (10, 10) Mode.walk 0 1
    (by intro e he; simp [Gsplit] at he)
    (by simp [nodeIds, Gsplit])
    nearest_Gsplit_start nearest_Gsplit_goal

/-- Witness for `find_path_same_node`: both endpoints snap to node 0. -/
theorem find_path_same_node_witness :
    find_path dTaxi Gtwo (0, 0) (0, 0) Mode.walk =
      some (FindPathResult.ok [nodeCoord Gtwo 0] 0 0) ∧
    FindPathResult.success (FindPathResult.ok [nodeCoord Gtwo 0] 0 0) =
      true :=
  find_path_same_node dTaxi Gtwo (0, 0) (0, 0) Mode.walk 0
    nearest_Gtwo_start nearest_Gtwo_start

/-- Witness for `distance_recomputed_spec` at the concrete `Gtwo` query. -/
theorem distance_recomputed_spec_witness :
    (169/100 : ℚ) = round2 (pairSum dTaxi [(0, 0), (0, 16856/10000)]) ∧
    (2 : ℤ) = pyRound (pairSum dTaxi [(0, 0), (0, 16856/10000)] /
      speeds Mode.car * 60) ∧
    fuel_consumption (169/100) =
      round2 (round2 (pairSum dTaxi [(0, 0), (0, 16856/10000)]) *
        (8/100)) :=
  distance_recomputed_spec dTaxi Gtwo (0, 0) (0, 16856/10000) Mode.car
    [(0, 0), (0, 16856/10000)] (169/100) 2 find_path_Gtwo_eval

/-- Witness for `time_estimate_spec` at the concrete `Gtwo` query. -/
theorem time_estimate_spec_witness :
    (2 : ℤ) = pyRound (pairSum dTaxi [(0, 0), (0, 16856/10000)] /
      speeds Mode.car * 60) ∧
    speeds Mode.car = 50 ∧ speeds Mode.walk = 5 ∧ speeds Mode.bike = 15 :=
  time_estimate_spec dTaxi Gtwo (0, 0) (0, 16856/10000) Mode.car
    [(0, 0), (0, 16856/10000)] (169/100) 2 find_path_Gtwo_eval

/-- Witness for `route_invariant` at the concrete `Gtwo` query. -/
theorem route_invariant_witness :
    ([(0, 0), (0, 16856/10000)] : List Coordinate) ≠ [] ∧
    (0 : ℚ) ≤ 169/100 ∧ (0 : ℤ) ≤ 2 ∧
    ∃ s t p, nearestNode dTaxi Gtwo (0, 0) = some s ∧
      nearestNode dTaxi Gtwo (0, 16856/10000) = some t ∧
      findPath Gtwo s t = some p ∧
      ([(0, 0), (0, 16856/10000)] : List Coordinate) =
        p.map (nodeCoord Gtwo) :=
  route_invariant dTaxi Gtwo (0, 0) (0, 16856/10000) Mode.car
    [(0, 0), (0, 16856/10000)] (169/100) 2 dTaxi_nonneg find_path_Gtwo_eval

/-- Witness for `nearestNode_spec` on the non-empty graph `Gtwo`. -/
theorem nearestNode_spec_witness :
    ∃ nd ∈ Gtwo.nodes, nearestNode dTaxi Gtwo (0, 0) = some nd.id ∧
      (∀ m ∈ Gtwo.nodes,
        ¬ dTaxi (m.lat, m.lon) (0, 0) < dTaxi (nd.lat, nd.lon) (0, 0)) ∧
      (∀ m ∈ Gtwo.nodes,
        dTaxi (m.lat, m.lon) (0, 0) = dTaxi (nd.lat, nd.lon) (0, 0) →
          nd.id ≤ m.id) :=
  (nearestNode_spec dTaxi Gtwo (0, 0)).2 (by simp [Gtwo])

/-- Witness for `traffic_multiplier_table` at hour 8. -/
theorem traffic_multiplier_table_witness :
    trafficFactor 8 = 3/2 ∧ trafficAdjust 100 8 = (3/2, 150) :=
  ⟨(traffic_multiplier_table.1 8).1.mpr (by decide),
    traffic_multiplier_table.2.2.1⟩
